import Mathlib

/-!
Verification of the tic-tac-toe search core of `scales/tictactoe.py`.

The Python module stores cells as the `IntEnum` `GameState` (`empty = 0`,
`player = -1`, `ai = +1`) inside a 3×3 list of lists, and searches with a
depth-bounded minimax (`min_max`).  The embedding below translates those
functions; machine integers are `Int`, the `±math.inf` score sentinels are
the two extra constructors of `XInt`, and the in-place mutation of the
board inside `min_max` is made explicit by threading the board through the
loop and returning it alongside the result.
-/

namespace TicTacToe

/-- Values of the `GameState` IntEnum: `empty = 0`. -/
def GameState.empty : Int := 0

/-- Values of the `GameState` IntEnum: `player = -1` (the human, SideA). -/
def GameState.player : Int := -1

/-- Values of the `GameState` IntEnum: `ai = +1` (the bot, SideB). -/
def GameState.ai : Int := 1

/-- A board is a list of rows of cells, as in the Python list-of-lists. -/
abbrev Board := List (List Int)

/-- Reading `board[i][x]`; out-of-range reads (which would raise in Python
and never happen on 3×3 boards) default to `0`. -/
def cell (board : Board) (i x : Nat) : Int :=
  (board.getD i []).getD x 0

/-- Writing `board[i][x] = v`; out of range it is the identity. -/
def setCell (board : Board) (i x : Nat) (v : Int) : Board :=
  board.set i ((board.getD i []).set x v)

/-- Python's `determine_win_state`: the eight lines are materialised as
value triples and the winner's triple is looked up by list membership. -/
def determine_win_state (board : Board) (player : Int) : Bool :=
  let win_states : List (List Int) :=
    [[cell board 0 0, cell board 0 1, cell board 0 2],
     [cell board 1 0, cell board 1 1, cell board 1 2],
     [cell board 2 0, cell board 2 1, cell board 2 2],
     [cell board 0 0, cell board 1 0, cell board 2 0],
     [cell board 0 1, cell board 1 1, cell board 2 1],
     [cell board 0 2, cell board 1 2, cell board 2 2],
     [cell board 0 0, cell board 1 1, cell board 2 2],
     [cell board 2 0, cell board 1 1, cell board 0 2]]
  win_states.contains [player, player, player]

/-- Python's `determine_possible_positions`: the `[i, x]` pairs with an
empty cell, produced row by row (row-major order).  The two-element Python
lists are rendered as pairs. -/
def determine_possible_positions (board : Board) : List (Nat × Nat) :=
  (List.range 3).flatMap (fun i =>
    ((List.range 3).filter (fun x => cell board i x == GameState.empty)).map
      (fun x => (i, x)))

/-- Python's `evaluate`: `+1` if the ai has won, `-1` if the player has
won (checked second), else `0`. -/
def evaluate (board : Board) : Int :=
  if determine_win_state board GameState.ai then 1
  else if determine_win_state board GameState.player then -1
  else 0

/-- Scores as `min_max` handles them: the integers produced by `evaluate`
together with the `-math.inf` / `+math.inf` sentinels used to initialise
the running best. -/
inductive XInt : Type where
  | negInf : XInt
  | fin : Int → XInt
  | posInf : XInt
deriving DecidableEq, Repr

/-- Strict comparison of scores, as Python's `<` on ints and infinities. -/
def XInt.lt : XInt → XInt → Bool
  | XInt.negInf, XInt.negInf => false
  | XInt.negInf, _ => true
  | XInt.fin _, XInt.negInf => false
  | XInt.fin a, XInt.fin b => decide (a < b)
  | XInt.fin _, XInt.posInf => true
  | XInt.posInf, _ => false

/-- The initial `best` of `min_max`:
`[-1, -1, -math.inf] if player == GameState.ai else [-1, -1, +math.inf]`. -/
def bestInit (player : Int) : Int × Int × XInt :=
  if player == GameState.ai then (-1, -1, XInt.negInf) else (-1, -1, XInt.posInf)

/-- One iteration of the `for cell in determine_possible_positions(...)`
loop of `min_max`: place `player` at the cell, recurse (through `rec`) at
`depth - 1` for `-player`, restore the cell to empty, overwrite the first
two slots of the returned triple with the current cell, and keep it as the
running best exactly when the strict comparison of the source fires.  The
mutable Python board is the second component of the accumulator. -/
def min_max_step (rec : Board → Int → Int → (Int × Int × XInt) × Board)
    (depth : Int) (player : Int)
    (acc : (Int × Int × XInt) × Board) (c : Nat × Nat) :
    (Int × Int × XInt) × Board :=
  let r := rec (setCell acc.2 c.1 c.2 player) (depth - 1) (-player)
  let board2 := setCell r.2 c.1 c.2 GameState.empty
  let score : Int × Int × XInt := ((c.1 : Int), (c.2 : Int), r.1.2.2)
  if (player == GameState.ai && XInt.lt acc.1.2.2 score.2.2)
      || (!(player == GameState.ai) && XInt.lt score.2.2 acc.1.2.2) then
    (score, board2)
  else
    (acc.1, board2)

/-- Python's `min_max`, with an explicit fuel making the recursion
structural.  On a 3×3 board every recursive call fills one empty cell, so
the fuel supplied by the `min_max` wrapper below is never exhausted there;
the fuel-0 branch is unreachable for the boards of this program. -/
def min_max_fuel : Nat → Board → Int → Int → (Int × Int × XInt) × Board
  | 0, test_board, _, _ => ((-1, -1, XInt.negInf), test_board)
  | fuel + 1, test_board, depth, player =>
    if depth == 0 || determine_win_state test_board GameState.player
        || determine_win_state test_board GameState.ai then
      ((-1, -1, XInt.fin (evaluate test_board)), test_board)
    else
      (determine_possible_positions test_board).foldl
        (min_max_step (min_max_fuel fuel) depth player) (bestInit player, test_board)

/-- Python's `min_max(test_board, depth, player)`.  The result pairs the
returned `[x, y, score]` triple with the final state of the board argument
(the source mutates it in place and restores it). -/
def min_max (test_board : Board) (depth : Int) (player : Int) :
    (Int × Int × XInt) × Board :=
  min_max_fuel ((determine_possible_positions test_board).length + 1)
    test_board depth player

/-- The module-level `BoardTemplate`, the empty board. -/
def BoardTemplate : Board := [[0, 0, 0], [0, 0, 0], [0, 0, 0]]

/-- The candidate depths `process_turn` draws from: `random.choice([4, 6])`. -/
def depth_candidates : List Nat := [4, 6]

/-- The depth `process_turn` passes to the search:
`min(random.choice([4, 6]), depth)` with `depth = len(possible_positions)`.
The random candidate is made an explicit parameter. -/
def select_depth (candidate : Nat) (remaining_moves : Nat) : Nat :=
  min candidate remaining_moves

/-- Proof mirror of one loop iteration of `min_max`, with the board not
threaded: since every iteration restores the cell it mutated, the board
seen by each iteration is the entry board `b`.  `min_max_fuel_eq_pure`
below proves this mirror equal to the faithful translation. -/
def min_max_pure_step (rec : Board → Int → Int → Int × Int × XInt)
    (b : Board) (depth player : Int)
    (best : Int × Int × XInt) (c : Nat × Nat) : Int × Int × XInt :=
  let s := (rec (setCell b c.1 c.2 player) (depth - 1) (-player)).2.2
  if (player == GameState.ai && XInt.lt best.2.2 s)
      || (!(player == GameState.ai) && XInt.lt s best.2.2) then
    ((c.1 : Int), (c.2 : Int), s)
  else
    best

/-- Proof mirror of `min_max_fuel` with the board not threaded. -/
def min_max_pure : Nat → Board → Int → Int → Int × Int × XInt
  | 0, _, _, _ => (-1, -1, XInt.negInf)
  | fuel + 1, b, depth, player =>
    if depth == 0 || determine_win_state b GameState.player
        || determine_win_state b GameState.ai then
      (-1, -1, XInt.fin (evaluate b))
    else
      (determine_possible_positions b).foldl
        (min_max_pure_step (min_max_pure fuel) b depth player) (bestInit player)

/-- Modelled from the spec: one SideB (ai) turn of the perfect-play
scenario — the board after the ai plays the move `min_max` returns at
depth equal to the number of empty cells, as `process_turn` applies it
(`_board[x][y] = GameState.ai`). -/
def aiMove (b : Board) : Board :=
  let m := (min_max b ((determine_possible_positions b).length : Int) GameState.ai).1
  setCell b m.1.toNat m.2.1.toNat GameState.ai

mutual

/-- Modelled from the spec: the perfect-play game tree with SideB to move.
SideB plays the `min_max` move at depth = number of empty cells; the value
is `true` when no continuation ends in a SideA win. -/
def safeB : Nat → Board → Bool
  | 0, b => !determine_win_state b GameState.player
  | n + 1, b =>
    if determine_win_state b GameState.player then false
    else if determine_win_state b GameState.ai then true
    else if determine_possible_positions b = [] then true
    else safeA n (aiMove b)

/-- Modelled from the spec: the perfect-play game tree with SideA to move.
SideA may reply with any legal move; the value is `true` when no
continuation ends in a SideA win. -/
def safeA : Nat → Board → Bool
  | 0, b => !determine_win_state b GameState.player
  | n + 1, b =>
    if determine_win_state b GameState.player then false
    else if determine_win_state b GameState.ai then true
    else if determine_possible_positions b = [] then true
    else (determine_possible_positions b).all
      (fun q => safeB n (setCell b q.1 q.2 GameState.player))

end

/-! ### Specification-side vocabulary for the win and move-generation claims -/

/-- Specification-side data (§4.1, §8): the eight fixed lines — three
rows, three columns, two diagonals — as position triples, in the order
the source materialises them. -/
def win_lines : List (List (Nat × Nat)) :=
  [[(0, 0), (0, 1), (0, 2)],
   [(1, 0), (1, 1), (1, 2)],
   [(2, 0), (2, 1), (2, 2)],
   [(0, 0), (1, 0), (2, 0)],
   [(0, 1), (1, 1), (2, 1)],
   [(0, 2), (1, 2), (2, 2)],
   [(0, 0), (1, 1), (2, 2)],
   [(2, 0), (1, 1), (0, 2)]]

/-- Specification-side predicate (§4.1, §8): some fixed line has all
three cells equal to `side`. -/
def determine_win_state_spec (b : Board) (side : Int) : Prop :=
  ∃ l ∈ win_lines, ∀ q ∈ l, cell b q.1 q.2 = side

/-- The nine board positions in row-major order (spec §4.2). -/
def all_pairs : List (Nat × Nat) :=
  [(0, 0), (0, 1), (0, 2), (1, 0), (1, 1), (1, 2), (2, 0), (2, 1), (2, 2)]

/-- Specification-side count (§8): the number of occupied (non-empty)
cells among the nine board positions. -/
def occupied_count (b : Board) : Nat :=
  (all_pairs.filter (fun q => !(cell b q.1 q.2 == GameState.empty))).length

/-- Well-formed boards (§3): exactly three rows of exactly three cells. -/
def WellFormed (b : Board) : Prop :=
  b.length = 3 ∧ ∀ r ∈ b, r.length = 3

instance (b : Board) : Decidable (WellFormed b) := by
  unfold WellFormed
  infer_instance

/-- Specification-side game value (§8, "perfect play"): the minimax value
of the position with `p` to move, by complete exploration — `+1` an ai
win, `-1` a human win, `0` a draw.  The win checks follow the order of
`evaluate` (ai first); the fuel argument makes the recursion structural
and is never exhausted when supplied by `game_val`. -/
def game_val_fuel : Nat → Board → Int → Int
  | 0, _, _ => 0
  | fuel + 1, b, p =>
    if determine_win_state b GameState.ai then 1
    else if determine_win_state b GameState.player then -1
    else if determine_possible_positions b = [] then 0
    else
      (determine_possible_positions b).foldl
        (fun a q =>
          let v := game_val_fuel fuel (setCell b q.1 q.2 p) (-p)
          if p == GameState.ai then max a v else min a v)
        (if p == GameState.ai then -1 else 1)

/-- Specification-side game value of a board with `p` to move. -/
def game_val (b : Board) (p : Int) : Int :=
  game_val_fuel ((determine_possible_positions b).length + 1) b p

/-- A non-losing strategy certificate for the ai: at a node the ai plays
`move`, and `replies` covers every legal human answer with a further
certificate. -/
inductive BStrat : Type where
  | node (move : Nat × Nat) (replies : List ((Nat × Nat) × BStrat)) : BStrat

/-- Checks a strategy certificate: from a non-terminal board with the ai
to move, playing the certified move never lets the human reach a win,
whatever legal replies the human chooses. -/
def stratOk : Nat → BStrat → Board → Bool
  | 0, _, _ => false
  | fuel + 1, BStrat.node m rs, b =>
    (determine_possible_positions b).contains m &&
    (let b1 := setCell b m.1 m.2 GameState.ai
     if determine_win_state b1 GameState.player then false
     else if determine_win_state b1 GameState.ai then true
     else if determine_possible_positions b1 = [] then true
     else
       (determine_possible_positions b1).all (fun a =>
         let b2 := setCell b1 a.1 a.2 GameState.player
         if determine_win_state b2 GameState.player then false
         else if determine_win_state b2 GameState.ai then true
         else if determine_possible_positions b2 = [] then true
         else
           match List.lookup a rs with
           | some σ => stratOk fuel σ b2
           | none => false))

/-- A concrete non-losing ai strategy certificate from the empty board,
generated offline and checked by `stratOk`. -/
def bStratData : BStrat :=
  BStrat.node (0, 0) [((0, 1), BStrat.node (1, 0) [((0, 2), BStrat.node (2, 0) []), ((1, 1),
      BStrat.node (2, 0) []), ((1, 2), BStrat.node (2, 0) []), ((2, 0), BStrat.node (1, 1) [((0,
      2), BStrat.node (1, 2) []), ((1, 2), BStrat.node (2, 2) []), ((2, 1), BStrat.node (1, 2)
      []), ((2, 2), BStrat.node (1, 2) [])]), ((2, 1), BStrat.node (2, 0) []), ((2, 2),
      BStrat.node (2, 0) [])]), ((0, 2), BStrat.node (1, 0) [((0, 1), BStrat.node (2, 0) []),
      ((1, 1), BStrat.node (2, 0) []), ((1, 2), BStrat.node (2, 0) []), ((2, 0), BStrat.node (1,
      1) [((0, 1), BStrat.node (1, 2) []), ((1, 2), BStrat.node (2, 2) []), ((2, 1), BStrat.node
      (1, 2) []), ((2, 2), BStrat.node (1, 2) [])]), ((2, 1), BStrat.node (2, 0) []), ((2, 2),
      BStrat.node (2, 0) [])]), ((1, 0), BStrat.node (0, 1) [((0, 2), BStrat.node (1, 1) [((1,
      2), BStrat.node (2, 1) []), ((2, 0), BStrat.node (2, 1) []), ((2, 1), BStrat.node (2, 2)
      []), ((2, 2), BStrat.node (2, 1) [])]), ((1, 1), BStrat.node (0, 2) []), ((1, 2),
      BStrat.node (0, 2) []), ((2, 0), BStrat.node (0, 2) []), ((2, 1), BStrat.node (0, 2) []),
      ((2, 2), BStrat.node (0, 2) [])]), ((1, 1), BStrat.node (0, 1) [((0, 2), BStrat.node (2, 0)
      [((1, 0), BStrat.node (1, 2) [((2, 1), BStrat.node (2, 2) []), ((2, 2), BStrat.node (2, 1)
      [])]), ((1, 2), BStrat.node (1, 0) []), ((2, 1), BStrat.node (1, 0) []), ((2, 2),
      BStrat.node (1, 0) [])]), ((1, 0), BStrat.node (0, 2) []), ((1, 2), BStrat.node (0, 2) []),
      ((2, 0), BStrat.node (0, 2) []), ((2, 1), BStrat.node (0, 2) []), ((2, 2), BStrat.node (0,
      2) [])]), ((1, 2), BStrat.node (0, 2) [((0, 1), BStrat.node (1, 1) [((1, 0), BStrat.node
      (2, 0) []), ((2, 0), BStrat.node (2, 2) []), ((2, 1), BStrat.node (2, 0) []), ((2, 2),
      BStrat.node (2, 0) [])]), ((1, 0), BStrat.node (0, 1) []), ((1, 1), BStrat.node (0, 1) []),
      ((2, 0), BStrat.node (0, 1) []), ((2, 1), BStrat.node (0, 1) []), ((2, 2), BStrat.node (0,
      1) [])]), ((2, 0), BStrat.node (0, 1) [((0, 2), BStrat.node (1, 1) [((1, 0), BStrat.node
      (2, 1) []), ((1, 2), BStrat.node (2, 1) []), ((2, 1), BStrat.node (2, 2) []), ((2, 2),
      BStrat.node (2, 1) [])]), ((1, 0), BStrat.node (0, 2) []), ((1, 1), BStrat.node (0, 2) []),
      ((1, 2), BStrat.node (0, 2) []), ((2, 1), BStrat.node (0, 2) []), ((2, 2), BStrat.node (0,
      2) [])]), ((2, 1), BStrat.node (0, 2) [((0, 1), BStrat.node (1, 1) [((1, 0), BStrat.node
      (2, 0) []), ((1, 2), BStrat.node (2, 0) []), ((2, 0), BStrat.node (2, 2) []), ((2, 2),
      BStrat.node (2, 0) [])]), ((1, 0), BStrat.node (0, 1) []), ((1, 1), BStrat.node (0, 1) []),
      ((1, 2), BStrat.node (0, 1) []), ((2, 0), BStrat.node (0, 1) []), ((2, 2), BStrat.node (0,
      1) [])]), ((2, 2), BStrat.node (0, 2) [((0, 1), BStrat.node (2, 0) [((1, 0), BStrat.node
      (1, 1) []), ((1, 1), BStrat.node (1, 0) []), ((1, 2), BStrat.node (1, 0) []), ((2, 1),
      BStrat.node (1, 0) [])]), ((1, 0), BStrat.node (0, 1) []), ((1, 1), BStrat.node (0, 1) []),
      ((1, 2), BStrat.node (0, 1) []), ((2, 0), BStrat.node (0, 1) []), ((2, 1), BStrat.node (0,
      1) [])])]

/-! ### Backtracking: every mutation of the board is restored -/

/-- Writing `0` back into a slot that already holds `0` is the identity. -/
theorem row_restore : ∀ (l : List Int) (x : Nat), l.getD x 0 = 0 → l.set x 0 = l
  | [], _, _ => rfl
  | a :: t, 0, h => by
    simp only [List.getD_cons_zero] at h
    simp [h]
  | a :: t, x + 1, h => by
    simp only [List.getD_cons_succ] at h
    simpa using row_restore t x h

/-- Placing a value on an empty cell and then clearing that cell restores
the original board, for every board shape. -/
theorem setCell_restore : ∀ (b : Board) (i x : Nat), cell b i x = 0 →
    ∀ v : Int, setCell (setCell b i x v) i x GameState.empty = b
  | [], _, _, _, _ => rfl
  | r :: t, 0, x, h, v => by
    simp only [cell, List.getD_cons_zero] at h
    simp only [setCell, GameState.empty, List.getD_cons_zero, List.set_cons_zero]
    rw [List.set_set, row_restore r x h]
  | r :: t, i + 1, x, h, v => by
    simp only [cell, List.getD_cons_succ] at h
    simp only [setCell, GameState.empty, List.getD_cons_succ, List.set_cons_succ]
    have := setCell_restore t i x h v
    simp only [setCell, GameState.empty] at this
    rw [this]

/-- Membership in `determine_possible_positions`: exactly the in-range
pairs whose cell is empty. -/
theorem mem_positions (b : Board) (q : Nat × Nat) :
    q ∈ determine_possible_positions b ↔ q.1 < 3 ∧ q.2 < 3 ∧ cell b q.1 q.2 = 0 := by
  rcases q with ⟨i, x⟩
  simp only [determine_possible_positions, List.mem_flatMap, List.mem_map,
    List.mem_filter, List.mem_range, GameState.empty, beq_iff_eq]
  constructor
  · rintro ⟨i', hi', x', ⟨⟨hx', hc⟩, hq⟩⟩
    obtain ⟨rfl, rfl⟩ := Prod.mk.injEq .. ▸ hq
    exact ⟨hi', hx', hc⟩
  · rintro ⟨hi, hx, hc⟩
    exact ⟨i, hi, x, ⟨⟨hx, hc⟩, rfl⟩⟩

/-- The loop of `min_max` with the board threaded computes the same best
triple as the pure mirror and hands the entry board back unchanged. -/
theorem foldl_step_eq_pure (f : Nat) (d p : Int) (b : Board)
    (ih : ∀ (b' : Board) (d' p' : Int),
      min_max_fuel f b' d' p' = (min_max_pure f b' d' p', b')) :
    ∀ (ps : List (Nat × Nat)) (best : Int × Int × XInt),
      (∀ q ∈ ps, cell b q.1 q.2 = 0) →
      ps.foldl (min_max_step (min_max_fuel f) d p) (best, b)
        = (ps.foldl (min_max_pure_step (min_max_pure f) b d p) best, b) := by
  intro ps
  induction ps with
  | nil => intro best _; rfl
  | cons q qs ihl =>
    intro best h
    have hq : cell b q.1 q.2 = 0 := h q (List.mem_cons_self q qs)
    rw [List.foldl_cons, List.foldl_cons]
    have hstep : min_max_step (min_max_fuel f) d p (best, b) q
        = (min_max_pure_step (min_max_pure f) b d p best q, b) := by
      unfold min_max_step min_max_pure_step
      dsimp only
      rw [ih]
      dsimp only
      rw [setCell_restore b q.1 q.2 hq p]
      split <;> rfl
    rw [hstep]
    exact ihl (min_max_pure_step (min_max_pure f) b d p best q)
      (fun q' hq' => h q' (List.mem_cons_of_mem q hq'))

/-- The faithful, board-threading `min_max_fuel` equals its pure mirror,
and returns every board unchanged: each mutation is backtracked. -/
theorem min_max_fuel_eq_pure : ∀ (fuel : Nat) (b : Board) (d p : Int),
    min_max_fuel fuel b d p = (min_max_pure fuel b d p, b) := by
  intro fuel
  induction fuel with
  | zero => intro b d p; rfl
  | succ f ih =>
    intro b d p
    rw [min_max_fuel, min_max_pure]
    split
    · rfl
    · exact foldl_step_eq_pure f d p b ih (determine_possible_positions b)
        (bestInit p) (fun q hq => ((mem_positions b q).mp hq).2.2)

/-- Unfolding lemma for `min_max_fuel` at positive fuel. -/
theorem min_max_fuel_succ (f : Nat) (b : Board) (d p : Int) :
    min_max_fuel (f + 1) b d p
      = if d == 0 || determine_win_state b GameState.player
            || determine_win_state b GameState.ai then
          ((-1, -1, XInt.fin (evaluate b)), b)
        else
          (determine_possible_positions b).foldl
            (min_max_step (min_max_fuel f) d p) (bestInit p, b) := rfl

/-! ### Claim theorems -/

/-- C1 (amended): on a board with no empty cell and no winner, `min_max`
at any non-zero depth does not recurse, but it also does not return the
draw evaluation 0: the loop body never runs and the function hands back
the initialised best, whose score is the `-math.inf` / `+math.inf`
sentinel, with the sentinel move `(-1, -1)`. -/
theorem claim1_full_board_returns_sentinel (b : Board) (d p : Int)
    (hfull : determine_possible_positions b = [])
    (hp : determine_win_state b GameState.player = false)
    (ha : determine_win_state b GameState.ai = false)
    (hd : d ≠ 0) :
    min_max b d p = (bestInit p, b) := by
  have hd' : (d == 0) = false := by simpa using hd
  unfold min_max
  rw [hfull]
  rw [min_max_fuel_succ, hd', hp, ha]
  simp [hfull]

/-- C1 (counterexample): on the full drawn board below, `min_max` at
depth 1 for the ai returns score `-math.inf`, not the draw evaluation 0
claimed by the spec. -/
theorem claim1_counterexample :
    (min_max [[-1, 1, -1], [1, -1, 1], [1, -1, 1]] 1 GameState.ai).1.2.2
      ≠ XInt.fin 0 := by
  rw [min_max, min_max_fuel_eq_pure]
  decide!

/-- C1 (witness): the amended statement instantiated at the full drawn
board, depth 5, for the ai. -/
theorem claim1_witness :
    min_max [[-1, 1, -1], [1, -1, 1], [1, -1, 1]] 5 GameState.ai
      = (bestInit GameState.ai, [[-1, 1, -1], [1, -1, 1], [1, -1, 1]]) :=
  claim1_full_board_returns_sentinel _ 5 _ (by decide!) (by decide!) (by decide!)
    (by decide)

/-- C2: on `[[SideA,SideA,Empty],[Empty,SideB,Empty],[Empty,Empty,Empty]]`
at depth 9 the ai search returns the blocking move `(0, 2)`, and after
placing the ai there the human has no winning line. -/
theorem claim2_blocks_winning_line :
    (min_max [[-1, -1, 0], [0, 1, 0], [0, 0, 0]] 9 GameState.ai).1.1 = 0
      ∧ (min_max [[-1, -1, 0], [0, 1, 0], [0, 0, 0]] 9 GameState.ai).1.2.1 = 2
      ∧ determine_win_state
          (setCell [[-1, -1, 0], [0, 1, 0], [0, 0, 0]] 0 2 GameState.ai)
          GameState.player = false := by
  rw [min_max, min_max_fuel_eq_pure]
  decide!

/-- C3: at depth 1 on the empty board every ai move receives the same
cutoff score 0 (each child is evaluated at depth 0), and `min_max`
returns the first move in row-major order, `(0, 0)`: the running best is
replaced only on strict inequality. -/
theorem claim3_tie_break_first_move :
    (∀ q ∈ determine_possible_positions BoardTemplate,
        XInt.fin (evaluate (setCell BoardTemplate q.1 q.2 GameState.ai)) = XInt.fin 0)
      ∧ (determine_possible_positions BoardTemplate).head? = some (0, 0)
      ∧ (min_max BoardTemplate 1 GameState.ai).1 = (0, 0, XInt.fin 0) := by
  rw [min_max, min_max_fuel_eq_pure]
  decide!

/-- C4 (amended): only depth exactly 0 is treated as the terminal cutoff
(returning the immediate evaluation with the sentinel move); the source
compares `depth == 0`, so a strictly negative depth is not cut off and
recurses until the board fills or a win appears. -/
theorem claim4_depth_zero_cutoff (b : Board) (p : Int) :
    min_max b 0 p = ((-1, -1, XInt.fin (evaluate b)), b) := by
  unfold min_max
  rw [min_max_fuel_succ]
  simp

/-- C4 (counterexample): at depth `-1` on a two-empties board, `min_max`
recurses and returns the move `(2, 1)` with score `-1`, not the immediate
evaluation `(-1, -1, 0)` the cutoff would produce. -/
theorem claim4_counterexample :
    (min_max [[-1, 1, -1], [1, -1, 1], [0, 0, 1]] (-1) GameState.ai).1
        = (2, 1, XInt.fin (-1))
      ∧ (2, 1, XInt.fin (-1))
        ≠ (-1, -1, XInt.fin (evaluate [[-1, 1, -1], [1, -1, 1], [0, 0, 1]])) := by
  rw [min_max, min_max_fuel_eq_pure]
  decide!

/-- C5: `min_max` hands its board argument back exactly as it received
it — every mutation of the loop is backtracked on every path — and hence
a second call on the post-call board returns the same result. -/
theorem claim5_board_restored (b : Board) (d p : Int) :
    (min_max b d p).2 = b
      ∧ min_max ((min_max b d p).2) d p = min_max b d p := by
  have h : (min_max b d p).2 = b := by
    rw [min_max, min_max_fuel_eq_pure]
  exact ⟨h, by rw [h]⟩

/-- C9: the depth handed to the search is `min(candidate, remaining)`
for a candidate from the fixed set `[4, 6]`, so it never exceeds the
number of remaining legal moves. -/
theorem claim9_depth_clamped (c r : Nat) (hc : c ∈ depth_candidates) :
    select_depth c r ≤ r :=
  Nat.min_le_right c r

/-- C9 (witness): with two remaining moves, candidate 4 is clamped to a
depth of at most 2. -/
theorem claim9_witness : 4 ∈ depth_candidates ∧ select_depth 4 2 ≤ 2 :=
  ⟨by decide, claim9_depth_clamped 4 2 (by decide)⟩

/-- Helper for C7, proven for every side: `determine_win_state` holds
exactly when one of the eight fixed lines is uniformly that side. -/
theorem win_state_spec_iff (b : Board) (s : Int) :
    determine_win_state b s = true ↔ determine_win_state_spec b s := by
  have hc : ∀ (L : List (List Int)) (v : List Int),
      (L.contains v = true) ↔ v ∈ L := fun L v => List.elem_iff
  simp only [determine_win_state]
  rw [hc]
  simp only [determine_win_state_spec, win_lines, List.mem_cons,
    List.not_mem_nil, or_false, List.cons.injEq, and_true,
    exists_eq_or_imp, exists_eq_left, forall_eq_or_imp, forall_eq]
  constructor
  · rintro (⟨h1, h2, h3⟩ | ⟨h1, h2, h3⟩ | ⟨h1, h2, h3⟩ | ⟨h1, h2, h3⟩ | ⟨h1, h2, h3⟩
        | ⟨h1, h2, h3⟩ | ⟨h1, h2, h3⟩ | ⟨h1, h2, h3⟩) <;>
      simp_all
  · rintro (⟨h1, h2, h3⟩ | ⟨h1, h2, h3⟩ | ⟨h1, h2, h3⟩ | ⟨h1, h2, h3⟩ | ⟨h1, h2, h3⟩
        | ⟨h1, h2, h3⟩ | ⟨h1, h2, h3⟩ | ⟨h1, h2, h3⟩) <;>
      simp_all

/-- C7: for every board and both sides, `determine_win_state` holds
exactly when one of the eight fixed lines is uniformly that side. -/
theorem claim7_win_state_characterisation (b : Board) (s : Int)
    (hs : s = GameState.player ∨ s = GameState.ai) :
    determine_win_state b s = true ↔ determine_win_state_spec b s :=
  win_state_spec_iff b s

/-- C7 (witness): the characterisation instantiated for the human side
on a board whose first row is uniformly the human. -/
theorem claim7_witness :
    (GameState.player = GameState.player ∨ GameState.player = GameState.ai)
      ∧ (determine_win_state [[-1, -1, -1], [0, 1, 0], [0, 0, 1]] GameState.player = true
          ↔ determine_win_state_spec [[-1, -1, -1], [0, 1, 0], [0, 0, 1]] GameState.player) :=
  ⟨Or.inl rfl,
    claim7_win_state_characterisation [[-1, -1, -1], [0, 1, 0], [0, 0, 1]]
      GameState.player (Or.inl rfl)⟩

/-- Computation of `List.range 3`. -/
theorem range3_eq : List.range 3 = [0, 1, 2] := rfl

/-- One row of the move generator, rewritten as a filter over the row's
three positions. -/
theorem filter_map_row (i : Nat) (b : Board) :
    ((List.range 3).filter (fun x => cell b i x == GameState.empty)).map (fun x => (i, x))
      = ([(i, 0), (i, 1), (i, 2)] : List (Nat × Nat)).filter
          (fun q => cell b q.1 q.2 == GameState.empty) := by
  cases h0 : cell b i 0 == GameState.empty <;>
    cases h1 : cell b i 1 == GameState.empty <;>
    cases h2 : cell b i 2 == GameState.empty <;>
    simp [range3_eq, List.filter_cons, h0, h1, h2]

/-- The move generator is the row-major list of all positions filtered
to the empty cells. -/
theorem dpp_eq_filter (b : Board) :
    determine_possible_positions b
      = all_pairs.filter (fun q => cell b q.1 q.2 == GameState.empty) := by
  simp only [determine_possible_positions]
  nth_rewrite 1 [range3_eq]
  simp only [List.flatMap_cons, List.flatMap_nil, List.append_nil]
  rw [filter_map_row 0 b, filter_map_row 1 b, filter_map_row 2 b]
  have e : all_pairs
      = ([(0, 0), (0, 1), (0, 2)] : List (Nat × Nat))
          ++ ([(1, 0), (1, 1), (1, 2)] ++ [(2, 0), (2, 1), (2, 2)]) := rfl
  rw [e, List.filter_append, List.filter_append]

/-- A filter and its complement split the length of a list. -/
theorem filter_length_split (p : Nat × Nat → Bool) :
    ∀ l : List (Nat × Nat),
      (l.filter p).length + (l.filter (fun a => !(p a))).length = l.length := by
  intro l
  induction l with
  | nil => rfl
  | cons a t ih =>
    cases h : p a <;> simp [List.filter_cons, h] <;> omega

/-- C8: the move generator returns exactly the row-major list of empty
positions, its length plus the occupied-cell count is 9, and it is empty
exactly when all nine cells are occupied. -/
theorem claim8_move_generator (b : Board) :
    determine_possible_positions b
        = all_pairs.filter (fun q => cell b q.1 q.2 == GameState.empty)
      ∧ (determine_possible_positions b).length + occupied_count b = 9
      ∧ (determine_possible_positions b = [] ↔ occupied_count b = 9) := by
  have h1 := dpp_eq_filter b
  have h2 : (determine_possible_positions b).length + occupied_count b = 9 := by
    rw [h1, occupied_count]
    simpa using filter_length_split (fun q => cell b q.1 q.2 == GameState.empty) all_pairs
  refine ⟨h1, h2, ?_, ?_⟩
  · intro he
    rw [he] at h2
    simpa using h2
  · intro ho
    rw [ho] at h2
    have h3 : (determine_possible_positions b).length = 0 := by omega
    exact List.length_eq_zero.mp h3

/-! ### Cell reads and writes, well-formedness, and the move count -/

/-- Unfolding `setCell` on a cons at row 0. -/
theorem setCell_cons_zero (r : List Int) (t : Board) (x : Nat) (v : Int) :
    setCell (r :: t) 0 x v = (r.set x v) :: t := rfl

/-- Unfolding `setCell` on a cons at a later row. -/
theorem setCell_cons_succ (r : List Int) (t : Board) (i x : Nat) (v : Int) :
    setCell (r :: t) (i + 1) x v = r :: setCell t i x v := rfl

/-- Unfolding `setCell` on the empty list. -/
theorem setCell_nil (i x : Nat) (v : Int) : setCell [] i x v = [] := by
  cases i <;> rfl

/-- Unfolding `cell` on a cons at row 0. -/
theorem cell_cons_zero (r : List Int) (t : Board) (x : Nat) :
    cell (r :: t) 0 x = r.getD x 0 := rfl

/-- Unfolding `cell` on a cons at a later row. -/
theorem cell_cons_succ (r : List Int) (t : Board) (i x : Nat) :
    cell (r :: t) (i + 1) x = cell t i x := rfl

/-- Unfolding `cell` on the empty list. -/
theorem cell_nil (i x : Nat) : cell ([] : Board) i x = 0 := by
  cases i <;> rfl

/-- Writing then reading the same in-range row slot. -/
theorem row_getD_set_self : ∀ (l : List Int) (x : Nat), x < l.length →
    ∀ v : Int, (l.set x v).getD x 0 = v
  | [], x, h, v => absurd h (by simp)
  | a :: t, 0, _, v => rfl
  | a :: t, x + 1, h, v => by
    simpa using row_getD_set_self t x (by simpa using h) v

/-- Writing one row slot leaves the other slots unchanged. -/
theorem row_getD_set_ne : ∀ (l : List Int) (x y : Nat), x ≠ y →
    ∀ v : Int, (l.set x v).getD y 0 = l.getD y 0
  | [], _, _, _, _ => rfl
  | a :: t, 0, 0, h, v => absurd rfl h
  | a :: t, 0, y + 1, _, v => rfl
  | a :: t, x + 1, 0, _, v => rfl
  | a :: t, x + 1, y + 1, h, v => by
    simpa using row_getD_set_ne t x y (fun e => h (by rw [e])) v

/-- Writing then reading the same in-range cell. -/
theorem cell_setCell_self : ∀ (b : Board) (i x : Nat), i < b.length →
    x < (b.getD i []).length → ∀ v : Int, cell (setCell b i x v) i x = v
  | [], i, x, hi, _, v => absurd hi (by simp)
  | r :: t, 0, x, _, hx, v => by
    rw [setCell_cons_zero, cell_cons_zero]
    exact row_getD_set_self r x (by simpa using hx) v
  | r :: t, i + 1, x, hi, hx, v => by
    rw [setCell_cons_succ, cell_cons_succ]
    exact cell_setCell_self t i x (by simpa using hi) (by simpa using hx) v

/-- Writing one cell leaves every other cell unchanged. -/
theorem cell_setCell_ne : ∀ (b : Board) (i x j y : Nat), i ≠ j ∨ x ≠ y →
    ∀ v : Int, cell (setCell b i x v) j y = cell b j y
  | [], i, x, j, y, _, v => by rw [setCell_nil]
  | r :: t, 0, x, 0, y, h, v => by
    rcases h with h | h
    · exact absurd rfl h
    · rw [setCell_cons_zero, cell_cons_zero, cell_cons_zero]
      exact row_getD_set_ne r x y h v
  | r :: t, 0, x, j + 1, y, _, v => by
    rw [setCell_cons_zero, cell_cons_succ, cell_cons_succ]
  | r :: t, i + 1, x, 0, y, _, v => by
    rw [setCell_cons_succ, cell_cons_zero, cell_cons_zero]
  | r :: t, i + 1, x, j + 1, y, h, v => by
    rw [setCell_cons_succ, cell_cons_succ, cell_cons_succ]
    refine cell_setCell_ne t i x j y ?_ v
    rcases h with h | h
    · exact Or.inl (fun e => h (by rw [e]))
    · exact Or.inr h

/-- `setCell` preserves well-formedness (for an in-range row). -/
theorem WF_setCell (b : Board) (h : WellFormed b) (i x : Nat)
    (hi : i < b.length) (v : Int) : WellFormed (setCell b i x v) := by
  obtain ⟨hl, hr⟩ := h
  refine ⟨by simpa [setCell] using hl, ?_⟩
  intro r hrm
  rcases List.mem_or_eq_of_mem_set hrm with hm | rfl
  · exact hr r hm
  · rw [List.length_set, List.getD_eq_getElem _ _ hi]
    exact hr _ (List.getElem_mem hi)

/-- Occupying an empty cell removes exactly that pair from the move
list. -/
theorem positions_setCell (b : Board) (h : WellFormed b) (i x : Nat)
    (hi : i < 3) (hx : x < 3) (v : Int) (hv : v ≠ 0) :
    determine_possible_positions (setCell b i x v)
      = (determine_possible_positions b).erase (i, x) := by
  have hnodup : (determine_possible_positions b).Nodup := by
    rw [dpp_eq_filter]
    exact List.Nodup.filter _ (by decide)
  rw [List.Nodup.erase_eq_filter hnodup, dpp_eq_filter, dpp_eq_filter,
    List.filter_filter]
  apply List.filter_congr
  intro a ha
  by_cases he : a = (i, x)
  · subst he
    dsimp only
    have hib : i < b.length := h.1 ▸ hi
    have hxb : x < (b.getD i []).length := by
      rw [List.getD_eq_getElem _ _ hib]
      exact (h.2 _ (List.getElem_mem hib)) ▸ hx
    rw [cell_setCell_self b i x hib hxb v]
    have h1 : (v == GameState.empty) = false := by
      simpa [GameState.empty] using hv
    rw [h1]
    simp
  · have hne : i ≠ a.1 ∨ x ≠ a.2 := by
      by_contra hcon
      push_neg at hcon
      exact he (Prod.ext hcon.1.symm hcon.2.symm)
    rw [cell_setCell_ne b i x a.1 a.2 hne v]
    have h2 : (a != (i, x)) = true := by simpa using he
    rw [h2]
    simp

/-- Occupying a legal move shortens the move list by one. -/
theorem positions_setCell_length (b : Board) (h : WellFormed b)
    (q : Nat × Nat) (hq : q ∈ determine_possible_positions b)
    (v : Int) (hv : v ≠ 0) :
    (determine_possible_positions (setCell b q.1 q.2 v)).length
      = (determine_possible_positions b).length - 1 := by
  obtain ⟨h1, h2, _⟩ := (mem_positions b q).mp hq
  rw [positions_setCell b h q.1 q.2 h1 h2 v hv]
  exact List.length_erase_of_mem hq

/-- The immediate evaluation is one of the three legal scores. -/
theorem evaluate_range (b : Board) : -1 ≤ evaluate b ∧ evaluate b ≤ 1 := by
  unfold evaluate
  split
  · norm_num
  · split <;> norm_num

/-- Unfolding lemma for `min_max_pure` at positive fuel. -/
theorem min_max_pure_succ (f : Nat) (b : Board) (d p : Int) :
    min_max_pure (f + 1) b d p
      = if d == 0 || determine_win_state b GameState.player
            || determine_win_state b GameState.ai then
          (-1, -1, XInt.fin (evaluate b))
        else
          (determine_possible_positions b).foldl
            (min_max_pure_step (min_max_pure f) b d p) (bestInit p) := rfl

/-- The loop of `min_max`, when every candidate score is a finite value
in `[-1, 1]`, produces either a legal move tagged with such a score, or —
only when the move list is empty — the untouched initial best. -/
theorem foldl_pure_good (f : Nat) (b : Board) (d p : Int)
    (hchild : ∀ q ∈ determine_possible_positions b,
      ∃ s : Int, -1 ≤ s ∧ s ≤ 1 ∧
        (min_max_pure f (setCell b q.1 q.2 p) (d - 1) (-p)).2.2 = XInt.fin s) :
    ∀ ps : List (Nat × Nat), (∀ q ∈ ps, q ∈ determine_possible_positions b) →
      ∀ best : Int × Int × XInt,
        ((∃ q ∈ determine_possible_positions b, ∃ s : Int, -1 ≤ s ∧ s ≤ 1 ∧
            best = ((q.1 : Int), (q.2 : Int), XInt.fin s)) ∨ best = bestInit p) →
        (∃ q ∈ determine_possible_positions b, ∃ s : Int, -1 ≤ s ∧ s ≤ 1 ∧
            ps.foldl (min_max_pure_step (min_max_pure f) b d p) best
              = ((q.1 : Int), (q.2 : Int), XInt.fin s))
          ∨ (ps = [] ∧ best = bestInit p) := by
  intro ps
  induction ps with
  | nil =>
    intro _ best hbest
    rcases hbest with hg | hinit
    · exact Or.inl hg
    · exact Or.inr ⟨rfl, hinit⟩
  | cons q qs ihl =>
    intro hsub best hbest
    rw [List.foldl_cons]
    have hqmem : q ∈ determine_possible_positions b := hsub q (List.mem_cons_self q qs)
    obtain ⟨s0, hs0l, hs0r, hs0⟩ := hchild q hqmem
    have hstep : ∃ q' ∈ determine_possible_positions b, ∃ s : Int, -1 ≤ s ∧ s ≤ 1 ∧
        min_max_pure_step (min_max_pure f) b d p best q
          = ((q'.1 : Int), (q'.2 : Int), XInt.fin s) := by
      unfold min_max_pure_step
      dsimp only
      rw [hs0]
      rcases hbest with ⟨qb, hqb, sb, hsbl, hsbr, rfl⟩ | rfl
      · split
        · exact ⟨q, hqmem, s0, hs0l, hs0r, rfl⟩
        · exact ⟨qb, hqb, sb, hsbl, hsbr, rfl⟩
      · have hcond : (p == GameState.ai && XInt.lt (bestInit p).2.2 (XInt.fin s0)
            || (!(p == GameState.ai) && XInt.lt (XInt.fin s0) (bestInit p).2.2)) = true := by
          by_cases hp : (p == GameState.ai) = true
          · simp [bestInit, hp, XInt.lt]
          · have hp' : (p == GameState.ai) = false := by simpa using hp
            simp [bestInit, hp', XInt.lt]
        rw [if_pos hcond]
        exact ⟨q, hqmem, s0, hs0l, hs0r, rfl⟩
    have hrest := ihl (fun q' hq' => hsub q' (List.mem_cons_of_mem q hq'))
      (min_max_pure_step (min_max_pure f) b d p best q) (Or.inl hstep)
    rcases hrest with hg | ⟨hnil, _⟩
    · exact Or.inl hg
    · exact Or.inl (by rw [hnil]; exact hstep)

/-- Main induction: with a valid side, no winner yet, and a depth between
1 and the number of legal moves, the pure search returns a legal move and
a finite score in `[-1, 1]`; its score component is such a finite value
under the weaker bound `0 ≤ depth`. -/
theorem min_max_pure_main : ∀ (fuel : Nat) (b : Board) (d p : Int),
    WellFormed b → (p = GameState.player ∨ p = GameState.ai) →
    0 ≤ d → d ≤ ((determine_possible_positions b).length : Int) →
    d < (fuel : Int) →
    (∃ s : Int, -1 ≤ s ∧ s ≤ 1 ∧ (min_max_pure fuel b d p).2.2 = XInt.fin s)
    ∧ (1 ≤ d →
        determine_win_state b GameState.player = false →
        determine_win_state b GameState.ai = false →
        ∃ q ∈ determine_possible_positions b, ∃ s : Int, -1 ≤ s ∧ s ≤ 1 ∧
          min_max_pure fuel b d p = ((q.1 : Int), (q.2 : Int), XInt.fin s)) := by
  intro fuel
  induction fuel with
  | zero =>
    intro b d p _ _ h0 _ hf
    exact absurd hf (by push_cast; omega)
  | succ f ih =>
    intro b d p hWF hp hd0 hdL hdf
    rw [min_max_pure_succ]
    by_cases hcut : (d == 0 || determine_win_state b GameState.player
        || determine_win_state b GameState.ai) = true
    · rw [if_pos hcut]
      refine ⟨⟨evaluate b, (evaluate_range b).1, (evaluate_range b).2, rfl⟩, ?_⟩
      intro hd1 hwp hwa
      exfalso
      rw [hwp, hwa] at hcut
      simp only [Bool.or_false] at hcut
      have : d = 0 := by simpa using hcut
      omega
    · rw [if_neg hcut]
      have hsplit : ¬(d = 0) ∧ determine_win_state b GameState.player = false
          ∧ determine_win_state b GameState.ai = false := by
        simpa [not_or, and_assoc] using hcut
      have hd1 : 1 ≤ d := by
        have := hsplit.1
        omega
      have hchild : ∀ q ∈ determine_possible_positions b,
          ∃ s : Int, -1 ≤ s ∧ s ≤ 1 ∧
            (min_max_pure f (setCell b q.1 q.2 p) (d - 1) (-p)).2.2 = XInt.fin s := by
        intro q hq
        obtain ⟨hq1, hq2, hq0⟩ := (mem_positions b q).mp hq
        have hWF' : WellFormed (setCell b q.1 q.2 p) :=
          WF_setCell b hWF q.1 q.2 (hWF.1 ▸ hq1) p
        have hpne : p ≠ 0 := by
          rcases hp with rfl | rfl <;> simp [GameState.player, GameState.ai]
        have hlen : (determine_possible_positions (setCell b q.1 q.2 p)).length
            = (determine_possible_positions b).length - 1 :=
          positions_setCell_length b hWF q hq p hpne
        have hp' : -p = GameState.player ∨ -p = GameState.ai := by
          rcases hp with rfl | rfl
          · exact Or.inr (by simp [GameState.player, GameState.ai])
          · exact Or.inl (by simp [GameState.player, GameState.ai])
        have hL1 : 1 ≤ (determine_possible_positions b).length :=
          List.length_pos.mpr (List.ne_nil_of_mem hq)
        refine (ih (setCell b q.1 q.2 p) (d - 1) (-p) hWF' hp' (by omega) ?_ ?_).1
        · rw [hlen, Nat.cast_sub hL1]
          push_cast
          omega
        · push_cast at hdf ⊢
          omega
      have hfold := foldl_pure_good f b d p hchild (determine_possible_positions b)
        (fun q hq => hq) (bestInit p) (Or.inr rfl)
      rcases hfold with ⟨q, hq, s, h1, h2, heq⟩ | ⟨hnil, _⟩
      · exact ⟨⟨s, h1, h2, by rw [heq]⟩,
          fun _ _ _ => ⟨q, hq, s, h1, h2, heq⟩⟩
      · exfalso
        rw [hnil] at hdL
        simp at hdL
        omega

/-- C10: on a well-formed board with at least one empty cell and no
winner, a search depth between 1 and the number of empty cells makes
`min_max` return a move that is an empty cell of the board (never the
`(-1, -1)` sentinel) together with a score in `{-1, 0, +1}` — the
precondition under which `process_turn` can safely write the returned
move back into the board. -/
theorem claim10_safe_move (b : Board) (d side : Int)
    (hWF : WellFormed b)
    (hside : side = GameState.player ∨ side = GameState.ai)
    (hwp : determine_win_state b GameState.player = false)
    (hwa : determine_win_state b GameState.ai = false)
    (hd1 : 1 ≤ d) (hd2 : d ≤ ((determine_possible_positions b).length : Int)) :
    ∃ q ∈ determine_possible_positions b, ∃ s : Int,
      (s = -1 ∨ s = 0 ∨ s = 1)
        ∧ (min_max b d side).1 = ((q.1 : Int), (q.2 : Int), XInt.fin s) := by
  rw [min_max, min_max_fuel_eq_pure]
  obtain ⟨q, hq, s, h1, h2, heq⟩ :=
    (min_max_pure_main ((determine_possible_positions b).length + 1) b d side
      hWF hside (by omega) hd2 (by push_cast; omega)).2 hd1 hwp hwa
  exact ⟨q, hq, s, by omega, heq⟩

/-- C10 (witness): the safety statement instantiated on the empty board
at depth 1 for the ai. -/
theorem claim10_witness :
    WellFormed BoardTemplate
      ∧ determine_win_state BoardTemplate GameState.player = false
      ∧ (∃ q ∈ determine_possible_positions BoardTemplate, ∃ s : Int,
          (s = -1 ∨ s = 0 ∨ s = 1)
            ∧ (min_max BoardTemplate 1 GameState.ai).1
                = ((q.1 : Int), (q.2 : Int), XInt.fin s)) :=
  ⟨by decide, by decide!,
    claim10_safe_move BoardTemplate 1 GameState.ai (by decide) (Or.inr rfl)
      (by decide!) (by decide!) (by decide) (by decide!)⟩

/-! ### The specification-side game value -/

/-- Unfolding lemma for `game_val_fuel` at positive fuel. -/
theorem game_val_fuel_succ (f : Nat) (b : Board) (p : Int) :
    game_val_fuel (f + 1) b p
      = if determine_win_state b GameState.ai then 1
        else if determine_win_state b GameState.player then -1
        else if determine_possible_positions b = [] then 0
        else
          (determine_possible_positions b).foldl
            (fun a q =>
              let v := game_val_fuel f (setCell b q.1 q.2 p) (-p)
              if p == GameState.ai then max a v else min a v)
            (if p == GameState.ai then -1 else 1) := rfl

/-- Unfolding lemma for `game_val`. -/
theorem game_val_eq (b : Board) (p : Int) :
    game_val b p
      = if determine_win_state b GameState.ai then 1
        else if determine_win_state b GameState.player then -1
        else if determine_possible_positions b = [] then 0
        else
          (determine_possible_positions b).foldl
            (fun a q =>
              let v := game_val_fuel ((determine_possible_positions b).length)
                (setCell b q.1 q.2 p) (-p)
              if p == GameState.ai then max a v else min a v)
            (if p == GameState.ai then -1 else 1) := rfl

/-- A running maximum is bounded above by any common bound. -/
theorem foldl_max_le_of (g : Nat × Nat → Int) :
    ∀ (ps : List (Nat × Nat)) (a c : Int), a ≤ c → (∀ q ∈ ps, g q ≤ c) →
      ps.foldl (fun a q => max a (g q)) a ≤ c := by
  intro ps
  induction ps with
  | nil => intro a c h _; exact h
  | cons q qs ihl =>
    intro a c ha hall
    rw [List.foldl_cons]
    exact ihl _ c (max_le ha (hall q (List.mem_cons_self q qs)))
      (fun q' h' => hall q' (List.mem_cons_of_mem q h'))

/-- A running maximum dominates its starting value. -/
theorem foldl_max_ge_init (g : Nat × Nat → Int) :
    ∀ (ps : List (Nat × Nat)) (a : Int),
      a ≤ ps.foldl (fun a q => max a (g q)) a := by
  intro ps
  induction ps with
  | nil => intro a; exact le_refl a
  | cons q qs ihl =>
    intro a
    rw [List.foldl_cons]
    exact le_trans (le_max_left a (g q)) (ihl (max a (g q)))

/-- A running maximum dominates every element folded in. -/
theorem foldl_max_ge_elem (g : Nat × Nat → Int) :
    ∀ (ps : List (Nat × Nat)) (a : Int) (q : Nat × Nat), q ∈ ps →
      g q ≤ ps.foldl (fun a q => max a (g q)) a := by
  intro ps
  induction ps with
  | nil => intro a q h; exact absurd h (List.not_mem_nil q)
  | cons r rs ihl =>
    intro a q hq
    rw [List.foldl_cons]
    rcases List.mem_cons.mp hq with rfl | hq'
    · exact le_trans (le_max_right a (g q)) (foldl_max_ge_init g rs _)
    · exact ihl _ q hq'

/-- A running minimum is bounded below by any common bound. -/
theorem foldl_min_ge_of (g : Nat × Nat → Int) :
    ∀ (ps : List (Nat × Nat)) (a c : Int), c ≤ a → (∀ q ∈ ps, c ≤ g q) →
      c ≤ ps.foldl (fun a q => min a (g q)) a := by
  intro ps
  induction ps with
  | nil => intro a c h _; exact h
  | cons q qs ihl =>
    intro a c ha hall
    rw [List.foldl_cons]
    exact ihl _ c (le_min ha (hall q (List.mem_cons_self q qs)))
      (fun q' h' => hall q' (List.mem_cons_of_mem q h'))

/-- A running minimum is dominated by its starting value. -/
theorem foldl_min_le_init (g : Nat × Nat → Int) :
    ∀ (ps : List (Nat × Nat)) (a : Int),
      ps.foldl (fun a q => min a (g q)) a ≤ a := by
  intro ps
  induction ps with
  | nil => intro a; exact le_refl a
  | cons q qs ihl =>
    intro a
    rw [List.foldl_cons]
    exact le_trans (ihl (min a (g q))) (min_le_left a (g q))

/-- A running minimum is dominated by every element folded in. -/
theorem foldl_min_le_elem (g : Nat × Nat → Int) :
    ∀ (ps : List (Nat × Nat)) (a : Int) (q : Nat × Nat), q ∈ ps →
      ps.foldl (fun a q => min a (g q)) a ≤ g q := by
  intro ps
  induction ps with
  | nil => intro a q h; exact absurd h (List.not_mem_nil q)
  | cons r rs ihl =>
    intro a q hq
    rw [List.foldl_cons]
    rcases List.mem_cons.mp hq with rfl | hq'
    · exact le_trans (foldl_min_le_init g rs _) (min_le_right a (g q))
    · exact ihl _ q hq'

/-- The game value always lies in `[-1, 1]`. -/
theorem game_val_fuel_range : ∀ (f : Nat) (b : Board) (p : Int),
    -1 ≤ game_val_fuel f b p ∧ game_val_fuel f b p ≤ 1 := by
  intro f
  induction f with
  | zero =>
    intro b p
    rw [show game_val_fuel 0 b p = 0 from rfl]
    exact ⟨by norm_num, by norm_num⟩
  | succ f ih =>
    intro b p
    rw [game_val_fuel_succ]
    split
    · norm_num
    split
    · norm_num
    split
    · norm_num
    by_cases hp : (p == GameState.ai) = true
    · simp only [hp, if_true]
      constructor
      · exact le_trans (by norm_num) (foldl_max_ge_init
          (fun q => game_val_fuel f (setCell b q.1 q.2 p) (-p)) _ (-1))
      · exact foldl_max_le_of _ _ _ 1 (by norm_num)
          (fun q _ => (ih (setCell b q.1 q.2 p) (-p)).2)
    · have hp' : (p == GameState.ai) = false := by simpa using hp
      simp only [hp', if_false]
      constructor
      · exact foldl_min_ge_of _ _ _ (-1) (by norm_num)
          (fun q _ => (ih (setCell b q.1 q.2 p) (-p)).1)
      · exact le_trans (foldl_min_le_init
          (fun q => game_val_fuel f (setCell b q.1 q.2 p) (-p)) _ 1) (by norm_num)

/-- The game value lies in `[-1, 1]`. -/
theorem game_val_range (b : Board) (p : Int) :
    -1 ≤ game_val b p ∧ game_val b p ≤ 1 :=
  game_val_fuel_range _ b p

/-- Inside `game_val`'s fold the recursive call carries exactly the fuel
`game_val` would supply for the smaller board. -/
theorem game_val_child (b : Board) (hWF : WellFormed b) (q : Nat × Nat)
    (hq : q ∈ determine_possible_positions b) (v : Int) (hv : v ≠ 0) (p' : Int) :
    game_val_fuel ((determine_possible_positions b).length)
        (setCell b q.1 q.2 v) p'
      = game_val (setCell b q.1 q.2 v) p' := by
  have hlen := positions_setCell_length b hWF q hq v hv
  have hL1 : 1 ≤ (determine_possible_positions b).length :=
    List.length_pos.mpr (List.ne_nil_of_mem hq)
  unfold game_val
  rw [hlen]
  congr 1
  omega

/-- Writing a value of the other side into an in-range cell cannot create
a win for `s`. -/
theorem win_setCell_other (b : Board) (hWF : WellFormed b) (i x : Nat)
    (hi : i < 3) (hx : x < 3) (v s : Int) (hvs : v ≠ s)
    (hw : determine_win_state b s = false) :
    determine_win_state (setCell b i x v) s = false := by
  by_contra hcon
  have h1 : determine_win_state (setCell b i x v) s = true := by
    revert hcon
    cases determine_win_state (setCell b i x v) s <;> simp
  obtain ⟨l, hl, hall⟩ := (win_state_spec_iff _ s).mp h1
  by_cases hmem : (i, x) ∈ l
  · have hcell := hall (i, x) hmem
    dsimp only at hcell
    have hib : i < b.length := hWF.1 ▸ hi
    have hxb : x < (b.getD i []).length := by
      rw [List.getD_eq_getElem _ _ hib]
      exact (hWF.2 _ (List.getElem_mem hib)) ▸ hx
    rw [cell_setCell_self b i x hib hxb v] at hcell
    exact hvs hcell
  · have hbs : determine_win_state b s = true := by
      apply (win_state_spec_iff b s).mpr
      refine ⟨l, hl, fun q hq => ?_⟩
      have hne : i ≠ q.1 ∨ x ≠ q.2 := by
        by_contra hc
        push_neg at hc
        obtain ⟨q1, q2⟩ := q
        have hqe : (i, x) = (q1, q2) := by rw [hc.1, hc.2]
        exact hmem (hqe ▸ hq)
      have := hall q hq
      rw [cell_setCell_ne b i x q.1 q.2 hne v] at this
      exact this
    rw [hbs] at hw
    exact absurd hw (by simp)

/-- For the maximiser, the strict-update loop of `min_max`, started from
a tagged finite score, computes the running maximum of the candidate
scores and returns the first move attaining it (or the start if no
candidate strictly improves it). -/
theorem fold_minmax_max (f : Nat) (b : Board) (d p : Int)
    (hp : (p == GameState.ai) = true) (w : Nat × Nat → Int) :
    ∀ ps : List (Nat × Nat),
      (∀ q ∈ ps,
        (min_max_pure f (setCell b q.1 q.2 p) (d - 1) (-p)).2.2 = XInt.fin (w q)) →
      ∀ (m0 : Nat × Nat) (v0 : Int),
        ∃ mr : Nat × Nat,
          ps.foldl (min_max_pure_step (min_max_pure f) b d p)
              ((m0.1 : Int), (m0.2 : Int), XInt.fin v0)
            = ((mr.1 : Int), (mr.2 : Int),
                XInt.fin (ps.foldl (fun a q => max a (w q)) v0))
          ∧ ((mr = m0 ∧ ps.foldl (fun a q => max a (w q)) v0 = v0)
              ∨ (mr ∈ ps ∧ w mr = ps.foldl (fun a q => max a (w q)) v0)) := by
  intro ps
  induction ps with
  | nil =>
    intro _ m0 v0
    exact ⟨m0, rfl, Or.inl ⟨rfl, rfl⟩⟩
  | cons q qs ihl =>
    intro hsc m0 v0
    simp only [List.foldl_cons]
    have hq := hsc q (List.mem_cons_self q qs)
    have hstep : min_max_pure_step (min_max_pure f) b d p
          ((m0.1 : Int), (m0.2 : Int), XInt.fin v0) q
        = if v0 < w q then ((q.1 : Int), (q.2 : Int), XInt.fin (w q))
          else ((m0.1 : Int), (m0.2 : Int), XInt.fin v0) := by
      unfold min_max_pure_step
      dsimp only
      rw [hq, hp]
      simp [XInt.lt]
    rw [hstep]
    by_cases hlt : v0 < w q
    · rw [if_pos hlt]
      have hmax : max v0 (w q) = w q := max_eq_right (le_of_lt hlt)
      obtain ⟨mr, heq, hdisj⟩ :=
        ihl (fun q' h' => hsc q' (List.mem_cons_of_mem q h')) q (w q)
      refine ⟨mr, ?_, ?_⟩
      · rw [heq, hmax]
      · rw [hmax]
        rcases hdisj with ⟨rfl, hv⟩ | ⟨hm, hv⟩
        · exact Or.inr ⟨List.mem_cons_self mr qs, hv.symm ▸ hv ▸ rfl⟩
        · exact Or.inr ⟨List.mem_cons_of_mem q hm, hv⟩
    · rw [if_neg hlt]
      have hmax : max v0 (w q) = v0 := max_eq_left (not_lt.mp hlt)
      obtain ⟨mr, heq, hdisj⟩ :=
        ihl (fun q' h' => hsc q' (List.mem_cons_of_mem q h')) m0 v0
      refine ⟨mr, ?_, ?_⟩
      · rw [heq, hmax]
      · rw [hmax]
        rcases hdisj with ⟨h1, h2⟩ | ⟨hm, hv⟩
        · exact Or.inl ⟨h1, h2⟩
        · exact Or.inr ⟨List.mem_cons_of_mem q hm, hv⟩

/-- For the minimiser, the strict-update loop computes the running
minimum of the candidate scores with the first attaining move. -/
theorem fold_minmax_min (f : Nat) (b : Board) (d p : Int)
    (hp : (p == GameState.ai) = false) (w : Nat × Nat → Int) :
    ∀ ps : List (Nat × Nat),
      (∀ q ∈ ps,
        (min_max_pure f (setCell b q.1 q.2 p) (d - 1) (-p)).2.2 = XInt.fin (w q)) →
      ∀ (m0 : Nat × Nat) (v0 : Int),
        ∃ mr : Nat × Nat,
          ps.foldl (min_max_pure_step (min_max_pure f) b d p)
              ((m0.1 : Int), (m0.2 : Int), XInt.fin v0)
            = ((mr.1 : Int), (mr.2 : Int),
                XInt.fin (ps.foldl (fun a q => min a (w q)) v0))
          ∧ ((mr = m0 ∧ ps.foldl (fun a q => min a (w q)) v0 = v0)
              ∨ (mr ∈ ps ∧ w mr = ps.foldl (fun a q => min a (w q)) v0)) := by
  intro ps
  induction ps with
  | nil =>
    intro _ m0 v0
    exact ⟨m0, rfl, Or.inl ⟨rfl, rfl⟩⟩
  | cons q qs ihl =>
    intro hsc m0 v0
    simp only [List.foldl_cons]
    have hq := hsc q (List.mem_cons_self q qs)
    have hstep : min_max_pure_step (min_max_pure f) b d p
          ((m0.1 : Int), (m0.2 : Int), XInt.fin v0) q
        = if w q < v0 then ((q.1 : Int), (q.2 : Int), XInt.fin (w q))
          else ((m0.1 : Int), (m0.2 : Int), XInt.fin v0) := by
      unfold min_max_pure_step
      dsimp only
      rw [hq, hp]
      simp [XInt.lt]
    rw [hstep]
    by_cases hlt : w q < v0
    · rw [if_pos hlt]
      have hmin : min v0 (w q) = w q := min_eq_right (le_of_lt hlt)
      obtain ⟨mr, heq, hdisj⟩ :=
        ihl (fun q' h' => hsc q' (List.mem_cons_of_mem q h')) q (w q)
      refine ⟨mr, ?_, ?_⟩
      · rw [heq, hmin]
      · rw [hmin]
        rcases hdisj with ⟨rfl, hv⟩ | ⟨hm, hv⟩
        · exact Or.inr ⟨List.mem_cons_self mr qs, hv.symm ▸ hv ▸ rfl⟩
        · exact Or.inr ⟨List.mem_cons_of_mem q hm, hv⟩
    · rw [if_neg hlt]
      have hmin : min v0 (w q) = v0 := min_eq_left (not_lt.mp hlt)
      obtain ⟨mr, heq, hdisj⟩ :=
        ihl (fun q' h' => hsc q' (List.mem_cons_of_mem q h')) m0 v0
      refine ⟨mr, ?_, ?_⟩
      · rw [heq, hmin]
      · rw [hmin]
        rcases hdisj with ⟨h1, h2⟩ | ⟨hm, hv⟩
        · exact Or.inl ⟨h1, h2⟩
        · exact Or.inr ⟨List.mem_cons_of_mem q hm, hv⟩

/-- Main correspondence: run at depth exactly the number of empty cells,
the pure search scores every position with its game value; on a
non-terminal position it returns a legal move whose resulting position
keeps the same game value. -/
theorem min_max_pure_game_val : ∀ (fuel : Nat) (b : Board) (p : Int),
    WellFormed b → (p = GameState.player ∨ p = GameState.ai) →
    fuel = (determine_possible_positions b).length + 1 →
    (min_max_pure fuel b ((determine_possible_positions b).length : Int) p).2.2
        = XInt.fin (game_val b p)
    ∧ (determine_win_state b GameState.ai = false →
        determine_win_state b GameState.player = false →
        determine_possible_positions b ≠ [] →
        ∃ q ∈ determine_possible_positions b,
          game_val (setCell b q.1 q.2 p) (-p) = game_val b p
          ∧ min_max_pure fuel b ((determine_possible_positions b).length : Int) p
              = ((q.1 : Int), (q.2 : Int), XInt.fin (game_val b p))) := by
  intro fuel
  induction fuel with
  | zero => intro b p _ _ hf; exact absurd hf (by omega)
  | succ f ih =>
    intro b p hWF hp hf
    by_cases hwa : determine_win_state b GameState.ai = true
    · have hcut : ((((determine_possible_positions b).length : Int) == 0)
          || determine_win_state b GameState.player
          || determine_win_state b GameState.ai) = true := by
        rw [hwa]
        simp
      rw [min_max_pure_succ, if_pos hcut]
      have hev : evaluate b = 1 := by unfold evaluate; rw [hwa]; simp
      have hgv : game_val b p = 1 := by rw [game_val_eq, hwa]; simp
      exact ⟨by rw [hev, hgv], fun hwaf _ _ => absurd hwa (by rw [hwaf]; simp)⟩
    · have hwa' : determine_win_state b GameState.ai = false := by
        revert hwa
        cases determine_win_state b GameState.ai <;> simp
      by_cases hwp : determine_win_state b GameState.player = true
      · have hcut : ((((determine_possible_positions b).length : Int) == 0)
            || determine_win_state b GameState.player
            || determine_win_state b GameState.ai) = true := by
          rw [hwp]
          simp
        rw [min_max_pure_succ, if_pos hcut]
        have hev : evaluate b = -1 := by unfold evaluate; rw [hwa', hwp]; simp
        have hgv : game_val b p = -1 := by
          rw [game_val_eq, hwp]
          rw [if_neg (by rw [hwa']; simp)]
          simp
        exact ⟨by rw [hev, hgv], fun _ hwpf _ => absurd hwp (by rw [hwpf]; simp)⟩
      · have hwp' : determine_win_state b GameState.player = false := by
          revert hwp
          cases determine_win_state b GameState.player <;> simp
        by_cases hnil : determine_possible_positions b = []
        · have hlen0 : (determine_possible_positions b).length = 0 := by
            rw [hnil]
            rfl
          have hcut : ((((determine_possible_positions b).length : Int) == 0)
              || determine_win_state b GameState.player
              || determine_win_state b GameState.ai) = true := by
            rw [hlen0]
            simp
          rw [min_max_pure_succ, if_pos hcut]
          have hev : evaluate b = 0 := by unfold evaluate; rw [hwa', hwp']; simp
          have hgv : game_val b p = 0 := by
            rw [game_val_eq]
            rw [if_neg (by rw [hwa']; simp), if_neg (by rw [hwp']; simp), if_pos hnil]
          exact ⟨by rw [hev, hgv], fun _ _ hne => absurd hnil hne⟩
        · -- interior position
          have hL1 : 1 ≤ (determine_possible_positions b).length :=
            List.length_pos.mpr hnil
          have hLne : ((((determine_possible_positions b).length : Int)) == 0) = false := by
            rw [beq_eq_false_iff_ne]
            exact_mod_cast Nat.pos_iff_ne_zero.mp hL1
          rw [min_max_pure_succ,
            if_neg (by rw [hLne, hwa', hwp']; simp)]
          have hpne : p ≠ 0 := by
            rcases hp with rfl | rfl <;> simp [GameState.player, GameState.ai]
          have hp2 : -p = GameState.player ∨ -p = GameState.ai := by
            rcases hp with rfl | rfl
            · exact Or.inr (by simp [GameState.player, GameState.ai])
            · exact Or.inl (by simp [GameState.player, GameState.ai])
          have hscores : ∀ q ∈ determine_possible_positions b,
              (min_max_pure f (setCell b q.1 q.2 p)
                  (((determine_possible_positions b).length : Int) - 1) (-p)).2.2
                = XInt.fin (game_val (setCell b q.1 q.2 p) (-p)) := by
            intro q hq
            have hWFc : WellFormed (setCell b q.1 q.2 p) :=
              WF_setCell b hWF q.1 q.2 (hWF.1 ▸ ((mem_positions b q).mp hq).1) p
            have hlenc := positions_setCell_length b hWF q hq p hpne
            have hdc : (((determine_possible_positions b).length : Int) - 1)
                = ((determine_possible_positions (setCell b q.1 q.2 p)).length : Int) := by
              rw [hlenc, Nat.cast_sub hL1, Nat.cast_one]
            rw [hdc]
            exact (ih (setCell b q.1 q.2 p) (-p) hWFc hp2 (by rw [hlenc]; omega)).1
          obtain ⟨q1, rest, hps⟩ : ∃ q1 rest,
              determine_possible_positions b = q1 :: rest := by
            cases hcase : determine_possible_positions b with
            | nil => exact absurd hcase hnil
            | cons a l => exact ⟨a, l, rfl⟩
          have hq1mem : q1 ∈ determine_possible_positions b := by
            rw [hps]
            exact List.mem_cons_self q1 rest
          have hlcast : (((q1 :: rest).length : Nat) : Int)
              = ((determine_possible_positions b).length : Int) := by
            rw [hps]
          rcases hp with hpl | hpa
          · -- minimiser (the human side)
            have hpt : (p == GameState.ai) = false := by
              rw [hpl]
              decide
            have hfirst : min_max_pure_step (min_max_pure f) b
                  ((determine_possible_positions b).length : Int) p (bestInit p) q1
                = ((q1.1 : Int), (q1.2 : Int),
                    XInt.fin (game_val (setCell b q1.1 q1.2 p) (-p))) := by
              unfold min_max_pure_step
              dsimp only
              rw [hscores q1 hq1mem, hpt]
              simp [bestInit, hpt, XInt.lt]
            obtain ⟨mr, heq, hdisj⟩ := fold_minmax_min f b
              ((determine_possible_positions b).length : Int) p hpt
              (fun q => game_val (setCell b q.1 q.2 p) (-p)) rest
              (fun q hq => hscores q (by rw [hps]; exact List.mem_cons_of_mem q1 hq))
              q1 (game_val (setCell b q1.1 q1.2 p) (-p))
            have hgv : game_val b p
                = rest.foldl
                    (fun a q => min a (game_val (setCell b q.1 q.2 p) (-p)))
                    (game_val (setCell b q1.1 q1.2 p) (-p)) := by
              rw [game_val_eq]
              rw [if_neg (by rw [hwa']; simp), if_neg (by rw [hwp']; simp),
                if_neg hnil]
              have hbody : (determine_possible_positions b).foldl
                  (fun a q =>
                    let v := game_val_fuel ((determine_possible_positions b).length)
                      (setCell b q.1 q.2 p) (-p)
                    if p == GameState.ai then max a v else min a v)
                  (if p == GameState.ai then -1 else 1)
                  = (determine_possible_positions b).foldl
                    (fun a q => min a (game_val (setCell b q.1 q.2 p) (-p))) 1 := by
                rw [show (if p == GameState.ai then (-1 : Int) else 1) = 1 by
                  rw [hpt]; simp]
                apply List.foldl_ext
                intro a q hq
                dsimp only
                rw [hpt, game_val_child b hWF q hq p hpne (-p)]
                simp
              rw [hbody, hps, List.foldl_cons]
              have hm1 : min 1 (game_val (setCell b q1.1 q1.2 p) (-p))
                  = game_val (setCell b q1.1 q1.2 p) (-p) :=
                min_eq_right (game_val_range _ _).2
              rw [hm1]
            refine ⟨?_, ?_⟩
            · rw [hps, List.foldl_cons, hlcast, hfirst, heq, hgv]
            · intro _ _ _
              refine ⟨mr, ?_, ?_, ?_⟩
              · rw [hps]
                rcases hdisj with ⟨rfl, _⟩ | ⟨hm, _⟩
                · exact List.mem_cons_self mr rest
                · exact List.mem_cons_of_mem q1 hm
              · rcases hdisj with ⟨rfl, hv⟩ | ⟨hm, hv⟩
                · rw [hgv, hv]
                · rw [hgv, ← hv]
              · rw [hps, List.foldl_cons, hlcast, hfirst, heq, hgv]
          · -- maximiser (the ai side)
            have hpt : (p == GameState.ai) = true := by
              rw [hpa]
              decide
            have hfirst : min_max_pure_step (min_max_pure f) b
                  ((determine_possible_positions b).length : Int) p (bestInit p) q1
                = ((q1.1 : Int), (q1.2 : Int),
                    XInt.fin (game_val (setCell b q1.1 q1.2 p) (-p))) := by
              unfold min_max_pure_step
              dsimp only
              rw [hscores q1 hq1mem, hpt]
              simp [bestInit, hpt, XInt.lt]
            obtain ⟨mr, heq, hdisj⟩ := fold_minmax_max f b
              ((determine_possible_positions b).length : Int) p hpt
              (fun q => game_val (setCell b q.1 q.2 p) (-p)) rest
              (fun q hq => hscores q (by rw [hps]; exact List.mem_cons_of_mem q1 hq))
              q1 (game_val (setCell b q1.1 q1.2 p) (-p))
            have hgv : game_val b p
                = rest.foldl
                    (fun a q => max a (game_val (setCell b q.1 q.2 p) (-p)))
                    (game_val (setCell b q1.1 q1.2 p) (-p)) := by
              rw [game_val_eq]
              rw [if_neg (by rw [hwa']; simp), if_neg (by rw [hwp']; simp),
                if_neg hnil]
              have hbody : (determine_possible_positions b).foldl
                  (fun a q =>
                    let v := game_val_fuel ((determine_possible_positions b).length)
                      (setCell b q.1 q.2 p) (-p)
                    if p == GameState.ai then max a v else min a v)
                  (if p == GameState.ai then -1 else 1)
                  = (determine_possible_positions b).foldl
                    (fun a q => max a (game_val (setCell b q.1 q.2 p) (-p))) (-1) := by
                rw [show (if p == GameState.ai then (-1 : Int) else 1) = -1 by
                  rw [hpt]; simp]
                apply List.foldl_ext
                intro a q hq
                dsimp only
                rw [hpt, game_val_child b hWF q hq p hpne (-p)]
                simp
              rw [hbody, hps, List.foldl_cons]
              have hm1 : max (-1) (game_val (setCell b q1.1 q1.2 p) (-p))
                  = game_val (setCell b q1.1 q1.2 p) (-p) :=
                max_eq_right (game_val_range _ _).1
              rw [hm1]
            refine ⟨?_, ?_⟩
            · rw [hps, List.foldl_cons, hlcast, hfirst, heq, hgv]
            · intro _ _ _
              refine ⟨mr, ?_, ?_, ?_⟩
              · rw [hps]
                rcases hdisj with ⟨rfl, _⟩ | ⟨hm, _⟩
                · exact List.mem_cons_self mr rest
                · exact List.mem_cons_of_mem q1 hm
              · rcases hdisj with ⟨rfl, hv⟩ | ⟨hm, hv⟩
                · rw [hgv, hv]
                · rw [hgv, ← hv]
              · rw [hps, List.foldl_cons, hlcast, hfirst, heq, hgv]

/-- Value of a position the ai has won. -/
theorem game_val_ai_win (b : Board) (p : Int)
    (hwa : determine_win_state b GameState.ai = true) : game_val b p = 1 := by
  rw [game_val_eq, if_pos hwa]

/-- Value of a position the human has won. -/
theorem game_val_player_win (b : Board) (p : Int)
    (hwa : determine_win_state b GameState.ai = false)
    (hwp : determine_win_state b GameState.player = true) : game_val b p = -1 := by
  rw [game_val_eq, if_neg (by rw [hwa]; simp), if_pos hwp]

/-- Value of a full drawn position. -/
theorem game_val_draw (b : Board) (p : Int)
    (hwa : determine_win_state b GameState.ai = false)
    (hwp : determine_win_state b GameState.player = false)
    (hnil : determine_possible_positions b = []) : game_val b p = 0 := by
  rw [game_val_eq, if_neg (by rw [hwa]; simp), if_neg (by rw [hwp]; simp),
    if_pos hnil]

/-- On a non-terminal position with the ai to move, the game value is the
running maximum of the child values. -/
theorem game_val_ai_fold (b : Board) (hWF : WellFormed b)
    (hwa : determine_win_state b GameState.ai = false)
    (hwp : determine_win_state b GameState.player = false)
    (hnil : determine_possible_positions b ≠ []) :
    game_val b GameState.ai
      = (determine_possible_positions b).foldl
          (fun a q =>
            max a (game_val (setCell b q.1 q.2 GameState.ai) GameState.player))
          (-1) := by
  rw [game_val_eq, if_neg (by rw [hwa]; simp), if_neg (by rw [hwp]; simp),
    if_neg hnil]
  rw [show (if GameState.ai == GameState.ai then (-1 : Int) else 1) = -1 from by
    simp]
  apply List.foldl_ext
  intro a q hq
  dsimp only
  rw [show -GameState.ai = GameState.player from by decide,
    game_val_child b hWF q hq GameState.ai (by decide) GameState.player]
  simp

/-- On a non-terminal position with the human to move, the game value is
the running minimum of the child values. -/
theorem game_val_player_fold (b : Board) (hWF : WellFormed b)
    (hwa : determine_win_state b GameState.ai = false)
    (hwp : determine_win_state b GameState.player = false)
    (hnil : determine_possible_positions b ≠ []) :
    game_val b GameState.player
      = (determine_possible_positions b).foldl
          (fun a q =>
            min a (game_val (setCell b q.1 q.2 GameState.player) GameState.ai))
          1 := by
  rw [game_val_eq, if_neg (by rw [hwa]; simp), if_neg (by rw [hwp]; simp),
    if_neg hnil]
  rw [show (if GameState.player == GameState.ai then (-1 : Int) else 1) = 1 from by
    simp [GameState.player, GameState.ai]]
  apply List.foldl_ext
  intro a q hq
  dsimp only
  rw [show -GameState.player = GameState.ai from by decide,
    game_val_child b hWF q hq GameState.player (by decide) GameState.ai]
  simp [GameState.player, GameState.ai]

/-- Unfolding lemma for `stratOk` at positive fuel. -/
theorem stratOk_succ (f : Nat) (m : Nat × Nat)
    (rs : List ((Nat × Nat) × BStrat)) (b : Board) :
    stratOk (f + 1) (BStrat.node m rs) b
      = ((determine_possible_positions b).contains m &&
          (let b1 := setCell b m.1 m.2 GameState.ai
           if determine_win_state b1 GameState.player then false
           else if determine_win_state b1 GameState.ai then true
           else if determine_possible_positions b1 = [] then true
           else
             (determine_possible_positions b1).all (fun a =>
               let b2 := setCell b1 a.1 a.2 GameState.player
               if determine_win_state b2 GameState.player then false
               else if determine_win_state b2 GameState.ai then true
               else if determine_possible_positions b2 = [] then true
               else
                 match List.lookup a rs with
                 | some σ => stratOk f σ b2
                 | none => false))) := rfl

/-- Soundness of the strategy certificate: an accepted certificate is a
proof that the ai, to move on a non-terminal position, cannot be forced
to lose — the game value is at least a draw. -/
theorem stratOk_sound : ∀ (f : Nat) (σ : BStrat) (b : Board),
    WellFormed b →
    determine_win_state b GameState.ai = false →
    determine_win_state b GameState.player = false →
    determine_possible_positions b ≠ [] →
    stratOk f σ b = true →
    0 ≤ game_val b GameState.ai := by
  intro f
  induction f with
  | zero =>
    intro σ b _ _ _ _ h
    exact absurd h (by rw [show stratOk 0 σ b = false from rfl]; simp)
  | succ f ih =>
    intro σ b hWF hwa hwp hnil hok
    obtain ⟨m, rs⟩ := σ
    rw [stratOk_succ, Bool.and_eq_true] at hok
    obtain ⟨hmc, hbody⟩ := hok
    dsimp only at hbody
    have hmmem : m ∈ determine_possible_positions b :=
      List.mem_of_elem_eq_true hmc
    obtain ⟨hm1, hm2, hm0⟩ := (mem_positions b m).mp hmmem
    have hge : game_val (setCell b m.1 m.2 GameState.ai) GameState.player
        ≤ game_val b GameState.ai := by
      rw [game_val_ai_fold b hWF hwa hwp hnil]
      exact foldl_max_ge_elem _ (determine_possible_positions b) (-1) m hmmem
    have hb1WF : WellFormed (setCell b m.1 m.2 GameState.ai) :=
      WF_setCell b hWF m.1 m.2 (hWF.1 ▸ hm1) _
    have hw1p : determine_win_state (setCell b m.1 m.2 GameState.ai)
        GameState.player = false :=
      win_setCell_other b hWF m.1 m.2 hm1 hm2 _ _ (by decide) hwp
    rw [if_neg (by rw [hw1p]; simp)] at hbody
    refine le_trans ?_ hge
    by_cases hw1a : determine_win_state (setCell b m.1 m.2 GameState.ai)
        GameState.ai = true
    · rw [game_val_ai_win _ _ hw1a]
      norm_num
    · have hw1a' : determine_win_state (setCell b m.1 m.2 GameState.ai)
          GameState.ai = false := by
        revert hw1a
        cases determine_win_state (setCell b m.1 m.2 GameState.ai) GameState.ai <;>
          simp
      rw [if_neg (by rw [hw1a']; simp)] at hbody
      by_cases h1nil : determine_possible_positions
          (setCell b m.1 m.2 GameState.ai) = []
      · rw [game_val_draw _ _ hw1a' hw1p h1nil]
      · rw [if_neg h1nil] at hbody
        have hall := List.all_eq_true.mp hbody
        rw [game_val_player_fold _ hb1WF hw1a' hw1p h1nil]
        apply foldl_min_ge_of
        · norm_num
        · intro a ha
          have hcase := hall a ha
          obtain ⟨ha1, ha2, ha0⟩ :=
            (mem_positions (setCell b m.1 m.2 GameState.ai) a).mp ha
          have hb2WF : WellFormed (setCell (setCell b m.1 m.2 GameState.ai)
              a.1 a.2 GameState.player) :=
            WF_setCell _ hb1WF a.1 a.2 (hb1WF.1 ▸ ha1) _
          have hw2a : determine_win_state
              (setCell (setCell b m.1 m.2 GameState.ai) a.1 a.2 GameState.player)
              GameState.ai = false :=
            win_setCell_other _ hb1WF a.1 a.2 ha1 ha2 _ _ (by decide) hw1a'
          by_cases hw2p : determine_win_state
              (setCell (setCell b m.1 m.2 GameState.ai) a.1 a.2 GameState.player)
              GameState.player = true
          · rw [if_pos hw2p] at hcase
            exact absurd hcase (by simp)
          · have hw2p' : determine_win_state
                (setCell (setCell b m.1 m.2 GameState.ai) a.1 a.2 GameState.player)
                GameState.player = false := by
              revert hw2p
              cases determine_win_state
                (setCell (setCell b m.1 m.2 GameState.ai) a.1 a.2 GameState.player)
                GameState.player <;> simp
            rw [if_neg (by rw [hw2p']; simp), if_neg (by rw [hw2a]; simp)] at hcase
            by_cases h2nil : determine_possible_positions
                (setCell (setCell b m.1 m.2 GameState.ai) a.1 a.2
                  GameState.player) = []
            · rw [game_val_draw _ _ hw2a hw2p' h2nil]
            · rw [if_neg h2nil] at hcase
              cases hlk : List.lookup a rs with
              | none => rw [hlk] at hcase; exact absurd hcase (by simp)
              | some σ2 =>
                rw [hlk] at hcase
                exact ih σ2 _ hb2WF hw2a hw2p' h2nil hcase

/-- Unfolding lemma for `safeB` at positive fuel. -/
theorem safeB_succ (n : Nat) (b : Board) :
    safeB (n + 1) b
      = if determine_win_state b GameState.player then false
        else if determine_win_state b GameState.ai then true
        else if determine_possible_positions b = [] then true
        else safeA n (aiMove b) := rfl

/-- Unfolding lemma for `safeA` at positive fuel. -/
theorem safeA_succ (n : Nat) (b : Board) :
    safeA (n + 1) b
      = if determine_win_state b GameState.player then false
        else if determine_win_state b GameState.ai then true
        else if determine_possible_positions b = [] then true
        else (determine_possible_positions b).all
          (fun q => safeB n (setCell b q.1 q.2 GameState.player)) := rfl

/-- Safety induction: from any well-formed position whose game value is
at least a draw for the side to move and where the human has not won, the
ai playing the `min_max` move at depth equal to the number of empty cells
never lets the human win, whatever the human replies. -/
theorem safe_of_val : ∀ n : Nat,
    (∀ b : Board, WellFormed b → 0 ≤ game_val b GameState.ai →
      determine_win_state b GameState.player = false → safeB n b = true)
    ∧ (∀ b : Board, WellFormed b → 0 ≤ game_val b GameState.player →
      determine_win_state b GameState.player = false → safeA n b = true) := by
  intro n
  induction n with
  | zero =>
    constructor
    · intro b _ _ hwp
      rw [show safeB 0 b = !determine_win_state b GameState.player from rfl, hwp]
      rfl
    · intro b _ _ hwp
      rw [show safeA 0 b = !determine_win_state b GameState.player from rfl, hwp]
      rfl
  | succ n ih =>
    constructor
    · intro b hWF hval hwp
      rw [safeB_succ, if_neg (by rw [hwp]; simp)]
      by_cases hwa : determine_win_state b GameState.ai = true
      · rw [if_pos hwa]
      · have hwa' : determine_win_state b GameState.ai = false := by
          revert hwa
          cases determine_win_state b GameState.ai <;> simp
        rw [if_neg (by rw [hwa']; simp)]
        by_cases hnil : determine_possible_positions b = []
        · rw [if_pos hnil]
        · rw [if_neg hnil]
          obtain ⟨q, hq, hqv, hqe⟩ := (min_max_pure_game_val
            ((determine_possible_positions b).length + 1) b GameState.ai hWF
            (Or.inr rfl) rfl).2 hwa' hwp hnil
          have hmv : aiMove b = setCell b q.1 q.2 GameState.ai := by
            unfold aiMove
            rw [min_max, min_max_fuel_eq_pure, hqe]
            dsimp only
            rw [Int.toNat_natCast, Int.toNat_natCast]
          rw [hmv]
          obtain ⟨hq1, hq2, _⟩ := (mem_positions b q).mp hq
          have hvq : game_val (setCell b q.1 q.2 GameState.ai) GameState.player
              = game_val b GameState.ai := by
            have h := hqv
            rw [show -GameState.ai = GameState.player from by decide] at h
            exact h
          exact ih.2 _ (WF_setCell b hWF q.1 q.2 (hWF.1 ▸ hq1) _)
            (by rw [hvq]; exact hval)
            (win_setCell_other b hWF q.1 q.2 hq1 hq2 _ _ (by decide) hwp)
    · intro b hWF hval hwp
      rw [safeA_succ, if_neg (by rw [hwp]; simp)]
      by_cases hwa : determine_win_state b GameState.ai = true
      · rw [if_pos hwa]
      · have hwa' : determine_win_state b GameState.ai = false := by
          revert hwa
          cases determine_win_state b GameState.ai <;> simp
        rw [if_neg (by rw [hwa']; simp)]
        by_cases hnil : determine_possible_positions b = []
        · rw [if_pos hnil]
        · rw [if_neg hnil]
          apply List.all_eq_true.mpr
          intro a ha
          obtain ⟨ha1, ha2, _⟩ := (mem_positions b a).mp ha
          have hWF2 : WellFormed (setCell b a.1 a.2 GameState.player) :=
            WF_setCell b hWF a.1 a.2 (hWF.1 ▸ ha1) _
          have hval2 : 0 ≤ game_val (setCell b a.1 a.2 GameState.player)
              GameState.ai := by
            have hfold := game_val_player_fold b hWF hwa' hwp hnil
            have hle := foldl_min_le_elem
              (fun q => game_val (setCell b q.1 q.2 GameState.player) GameState.ai)
              (determine_possible_positions b) 1 a ha
            rw [← hfold] at hle
            exact le_trans hval hle
          have hw2a : determine_win_state (setCell b a.1 a.2 GameState.player)
              GameState.ai = false :=
            win_setCell_other b hWF a.1 a.2 ha1 ha2 _ _ (by decide) hwa'
          have hw2p : determine_win_state (setCell b a.1 a.2 GameState.player)
              GameState.player = false := by
            by_cases hc : determine_win_state (setCell b a.1 a.2 GameState.player)
                GameState.player = true
            · exfalso
              rw [game_val_player_win _ _ hw2a hc] at hval2
              omega
            · revert hc
              cases determine_win_state (setCell b a.1 a.2 GameState.player)
                GameState.player <;> simp
          exact ih.1 _ hWF2 hval2 hw2p

/-- C6: starting from the empty board with the ai playing first, if the
ai always plays the move `min_max` returns at depth equal to the number
of empty cells, then for every sequence of legal human replies the game
never ends in a human win — `safeB`/`safeA` walk that whole game tree
and check every terminal position. -/
theorem claim6_perfect_play : safeB 9 BoardTemplate = true := by
  have hval : 0 ≤ game_val BoardTemplate GameState.ai := by
    apply stratOk_sound 6 bStratData BoardTemplate (by decide) (by decide!)
      (by decide!) (by decide!)
    decide!
  exact (safe_of_val 9).1 BoardTemplate (by decide) hval (by decide!)

end TicTacToe
